import Mathlib

/-!
Shallow embedding of `src/PattRecClasses/MarkovChain.py`.

Numpy 1-D arrays are modelled as `Vec` (a length together with an entry
function; entries at indices `≥ len` are junk and never inspected by the
translated code), 2-D arrays as `Mat`.  Real-valued numpy arithmetic on the
probability arrays is modelled exactly over `ℚ`; the transcendental
`np.log`/`np.exp` used by `probStateDuration` are modelled over `ℝ` extended
with the IEEE special values (`NpVal`), since those are the only aspects of
floating point that the specification's claims depend on.

Fallible numpy operations (shape/broadcast errors, the `assert` in
`forward`, falling off the end of a Python function) are modelled with
`Option`: `none` is an exception / `None` return.
-/

structure Vec where
  len : ℕ
  entry : ℕ → ℚ

structure Mat where
  rows : ℕ
  cols : ℕ
  entry : ℕ → ℕ → ℚ

/-- Build a `Vec` from an explicit list of entries (out-of-range reads give 0,
they are never reached by the translated code). -/
def Vec.ofList (l : List ℚ) : Vec :=
  ⟨l.length, fun i => l.getD i 0⟩

/-- Build a `Mat` from an explicit list of rows. -/
def Mat.ofList (l : List (List ℚ)) : Mat :=
  ⟨l.length, (l.getD 0 []).length, fun i j => (l.getD i []).getD j 0⟩

/-- Model of `numpy.transpose` / `.T`. -/
def Mat.transpose (m : Mat) : Mat :=
  ⟨m.cols, m.rows, fun i j => m.entry j i⟩

/-- Model of `numpy.eye`. -/
def Mat.eye (n : ℕ) : Mat :=
  ⟨n, n, fun i j => if i = j then 1 else 0⟩

/-- Numpy broadcasting of a single dimension: two sizes are compatible iff
they are equal or one of them is 1; the broadcast size is the larger one. -/
def broadcastDim (a b : ℕ) : Option ℕ :=
  if a = b then some a
  else if a = 1 then some b
  else if b = 1 then some a
  else none

/-- Index adjustment for a broadcast dimension of original size `n`. -/
def bcIdx (n i : ℕ) : ℕ :=
  if n = 1 then 0 else i

/-- Model of elementwise subtraction `x - y` of two 2-D numpy arrays,
including numpy's broadcasting rules; `none` is a shape `ValueError`. -/
def Mat.sub (x y : Mat) : Option Mat :=
  match broadcastDim x.rows y.rows, broadcastDim x.cols y.cols with
  | some r, some c =>
      some ⟨r, c, fun i j =>
        x.entry (bcIdx x.rows i) (bcIdx x.cols j)
          - y.entry (bcIdx y.rows i) (bcIdx y.cols j)⟩
  | _, _ => none

/-- Model of `m @ v` for a 2-D array and a 1-D array: numpy promotes the
vector to a column, so the matrix column count must equal the vector length;
otherwise a `ValueError` is raised (`none`). -/
def Mat.matVec (m : Mat) (v : Vec) : Option Vec :=
  if m.cols = v.len then
    some ⟨m.rows, fun i => ∑ j in Finset.range m.cols, m.entry i j * v.entry j⟩
  else none

/-- Sum of all entries of a `Vec` (model of `np.sum`). -/
def Vec.sum (v : Vec) : ℚ :=
  ∑ j in Finset.range v.len, v.entry j

/-- The `MarkovChain` class: fields exactly as stored by `__init__`. -/
structure MarkovChain where
  q : Vec
  A : Mat
  nStates : ℕ
  is_finite : Bool

/-- `MarkovChain.__init__`: stores `q` and `A` unchecked, derives `nStates`
from `A`'s row count, and `is_finite` from `A` being non-square.  The Python
constructor performs no validation and cannot fail, so this is a total
function. -/
def MarkovChain.init (initial_prob : Vec) (transition_prob : Mat) : MarkovChain :=
  { q := initial_prob
    A := transition_prob
    nStates := transition_prob.rows
    is_finite := transition_prob.rows != transition_prob.cols }

/-- One pass of the scaled forward recursion (`MarkovChain.forward`): column
`i` of the running arrays.  Component `.1` is the normalized column
`a_hat[:, i]`, component `.2` the scale factor `c[i]`.  The finite branch
multiplies `a_hat[:, i-1] @ A[:, :-1]` and the infinite branch
`a_hat[:, i-1] @ A`; entrywise both give
`Σ_k a_hat[k, i-1] * A[k, j]` for `j < nStates`, which is all
the recursion reads. -/
def fwdCols (mc : MarkovChain) (pX : Mat) : ℕ → (ℕ → ℚ) × ℚ
  | 0 =>
      let aTemp : ℕ → ℚ := fun j => mc.q.entry j * pX.entry j 0
      let c0 : ℚ := ∑ j in Finset.range mc.nStates, aTemp j
      (fun j => aTemp j / c0, c0)
  | i + 1 =>
      let prev : ℕ → ℚ := (fwdCols mc pX i).1
      let aTemp : ℕ → ℚ := fun j =>
        pX.entry j (i + 1) * ∑ k in Finset.range mc.nStates, prev k * mc.A.entry k j
      let ci : ℚ := ∑ j in Finset.range mc.nStates, aTemp j
      (fun j => aTemp j / ci, ci)

/-- The extra scale value appended by the finite branch of `forward`:
`c[nObservations] = a_hat[:, -1] @ A[:, -1]`. -/
def exitC (mc : MarkovChain) (pX : Mat) : ℚ :=
  ∑ k in Finset.range mc.nStates,
    (fwdCols mc pX (pX.cols - 1)).1 k * mc.A.entry k (mc.A.cols - 1)

/-- The `a_hat` matrix assembled by `forward`: column `t` is
`(fwdCols mc pX t).1`. -/
def ahatM (mc : MarkovChain) (pX : Mat) : Mat :=
  ⟨mc.nStates, pX.cols, fun j t => (fwdCols mc pX t).1 j⟩

/-- The scale-factor array assembled by `forward`: for a finite-duration
chain it has `nObservations + 1` entries, the last being the END exit term
`exitC`; for an infinite-duration chain it has `nObservations` entries. -/
def cVec (mc : MarkovChain) (pX : Mat) : Vec :=
  if mc.is_finite then
    ⟨pX.cols + 1, fun t => if t < pX.cols then (fwdCols mc pX t).2 else exitC mc pX⟩
  else
    ⟨pX.cols, fun t => (fwdCols mc pX t).2⟩

/-- `MarkovChain.forward`.  The `assert nStates == self.nStates` is modelled
by the outer guard (`none` = `AssertionError`); `pX[:, 0]` on a matrix with
zero columns raises an `IndexError`, modelled by the second guard.  The
`np.ones` initializations are irrelevant: every column of `a_hat` and every
entry of `c` is overwritten before being returned. -/
def MarkovChain.forward (mc : MarkovChain) (pX : Mat) : Option (Mat × Vec) :=
  if pX.rows = mc.nStates then
    if pX.cols = 0 then none
    else some (ahatM mc pX, cVec mc pX)
  else none

/-- Backward recursion columns, indexed by distance `d` from the last
column: `betaAux mc c pX d i = beta_hat[i, nSamples-1-d]`.  `d = 0` is the
initialization of the last column (finite: `A[:, -1] / (c[-1] * c[-2])`;
infinite: `1 / c[-1]`); the recursive case is the triple loop of
`MarkovChain.backward` (summation over `j < nStates` only, excluding the
END column). -/
def betaAux (mc : MarkovChain) (c : Vec) (pX : Mat) : ℕ → ℕ → ℚ
  | 0 => fun i =>
      if mc.is_finite then
        mc.A.entry i (mc.A.cols - 1) / (c.entry (c.len - 1) * c.entry (c.len - 2))
      else
        1 / c.entry (c.len - 1)
  | d + 1 => fun i =>
      (∑ j in Finset.range mc.nStates,
          mc.A.entry i j * pX.entry j (pX.cols - 1 - d) * betaAux mc c pX d j)
        / c.entry (pX.cols - 2 - d)

/-- `MarkovChain.backward`: `beta_hat[i, t]` for `t < pX.cols` (entries
beyond the shape are junk, as for every `Mat`). -/
def MarkovChain.backward (mc : MarkovChain) (c : Vec) (pX : Mat) : Mat :=
  ⟨mc.nStates, pX.cols, fun i t => betaAux mc c pX (pX.cols - 1 - t) i⟩

/-- Model of `np.random.choice(arr, p=p)`: the draw returns some element of
`arr`; which one depends on the random stream, modelled by the seed `r`.
The probability vector `p` influences only the distribution of the draw,
never its support, so it is carried but not read. -/
def npChoice (arr : List ℕ) (_p : ℕ → ℚ) (r : ℕ) : ℕ :=
  arr.getD (r % arr.length) 0

/-- Loop body of the infinite-duration branch of `MarkovChain.rand`:
`rem` remaining iterations, `i` the Python loop index, `prev` the last
generated state; returns the list of subsequently generated states. -/
def randInfLoop (mc : MarkovChain) (rs : ℕ → ℕ) : ℕ → ℕ → ℕ → List ℕ
  | 0, _, _ => []
  | rem + 1, i, prev =>
      let nxt := npChoice (List.range' 1 mc.nStates)
        (fun j => mc.A.entry (prev - 1) j) (rs i)
      nxt :: randInfLoop mc rs rem (i + 1) nxt

/-- Loop body of the finite-duration branch of `MarkovChain.rand`: draws
from `1..nStates+1`; drawing the END index `nStates+1` stops the loop
without appending it. -/
def randFinLoop (mc : MarkovChain) (rs : ℕ → ℕ) : ℕ → ℕ → ℕ → List ℕ
  | 0, _, _ => []
  | rem + 1, i, prev =>
      let nxt := npChoice (List.range' 1 (mc.nStates + 1))
        (fun j => mc.A.entry (prev - 1) j) (rs i)
      if nxt = mc.nStates + 1 then []
      else nxt :: randFinLoop mc rs rem (i + 1) nxt

/-- `MarkovChain.rand`.  Faithful to the Python control flow: in both
branches the sequence `S` is only returned inside the `if tmax > 1:` block,
so for `tmax ≤ 1` the function falls off the end and returns `None`
(modelled as `none`).  `rs` is the stream of random draws. -/
def MarkovChain.rand (mc : MarkovChain) (rs : ℕ → ℕ) (tmax : ℕ) : Option (List ℕ) :=
  if mc.is_finite = false then
    let s0 := npChoice (List.range' 1 mc.nStates) mc.q.entry (rs 0)
    if tmax > 1 then some (s0 :: randInfLoop mc rs (tmax - 1) 1 s0) else none
  else
    let s0 := npChoice (List.range' 1 mc.nStates) mc.q.entry (rs 0)
    if tmax > 1 then some (s0 :: randFinLoop mc rs (tmax - 1) 1 s0) else none

/-- Loop of `MarkovChain.probDuration`: each iteration records
`np.sum(pSt)` and then updates `pSt = A.T @ pSt`; a shape error in the
update aborts the whole call (`none`), exactly as the numpy exception
would. -/
def pdLoop (AT : Mat) : Vec → ℕ → Option (List ℚ)
  | _, 0 => some []
  | pSt, t + 1 =>
      let d := pSt.sum
      match AT.matVec pSt with
      | none => none
      | some pSt' => (pdLoop AT pSt' t).map (fun rest => d :: rest)

/-- `MarkovChain.probDuration`.  The infinite branch returns the untouched
`np.zeros(tmax)`.  The finite branch computes
`pSt = (np.eye(nStates) - A.T) @ q` — with the FULL transpose `A.T`, not the
non-absorbing submatrix — and then iterates; shape errors propagate as
`none`. -/
def MarkovChain.probDuration (mc : MarkovChain) (tmax : ℕ) : Option (List ℚ) :=
  if mc.is_finite then
    match Mat.sub (Mat.eye mc.nStates) mc.A.transpose with
    | none => none
    | some M =>
        match M.matVec mc.q with
        | none => none
        | some pSt0 => pdLoop mc.A.transpose pSt0 tmax
  else
    some (List.replicate tmax 0)

/-- IEEE floating-point value as far as the claims need it: an exact real,
a signed infinity, or NaN. -/
inductive NpVal where
  | num : ℝ → NpVal
  | posinf : NpVal
  | neginf : NpVal
  | nan : NpVal

/-- Model of `np.log` on an exact input: `log 0 = -inf` (numpy emits a
warning and returns `-inf`), `log x = nan` for `x < 0`. -/
noncomputable def npLog (x : ℚ) : NpVal :=
  if 0 < x then .num (Real.log x)
  else if x = 0 then .neginf
  else .nan

/-- IEEE multiplication on `NpVal`: `±inf * 0 = nan`, NaN propagates. -/
noncomputable def npMul (x y : NpVal) : NpVal :=
  match x, y with
  | .num a, .num b => .num (a * b)
  | .num a, .posinf => if 0 < a then .posinf else if a < 0 then .neginf else .nan
  | .num a, .neginf => if 0 < a then .neginf else if a < 0 then .posinf else .nan
  | .posinf, .num b => if 0 < b then .posinf else if b < 0 then .neginf else .nan
  | .neginf, .num b => if 0 < b then .neginf else if b < 0 then .posinf else .nan
  | .posinf, .posinf => .posinf
  | .posinf, .neginf => .neginf
  | .neginf, .posinf => .neginf
  | .neginf, .neginf => .posinf
  | _, _ => .nan

/-- IEEE addition on `NpVal`: `(+inf) + (-inf) = nan`, NaN propagates. -/
def npAdd (x y : NpVal) : NpVal :=
  match x, y with
  | .num a, .num b => .num (a + b)
  | .num _, .posinf => .posinf
  | .num _, .neginf => .neginf
  | .posinf, .num _ => .posinf
  | .neginf, .num _ => .neginf
  | .posinf, .posinf => .posinf
  | .neginf, .neginf => .neginf
  | _, _ => .nan

/-- Model of `np.exp` on `NpVal`: `exp(-inf) = 0`, `exp(+inf) = +inf`,
NaN propagates. -/
noncomputable def npExp (x : NpVal) : NpVal :=
  match x with
  | .num a => .num (Real.exp a)
  | .posinf => .posinf
  | .neginf => .num 0
  | .nan => .nan

/-- A 2-D array of `NpVal` entries (result shape of `probStateDuration`). -/
structure NpMat where
  rows : ℕ
  cols : ℕ
  entry : ℕ → ℕ → NpVal

/-- `MarkovChain.probStateDuration`: the outer-broadcast
`np.log(aii)*t + np.log(1-aii)` followed by `np.exp`, entry by entry.
`aii` is `np.diag(self.A)` and `t` ranges over `np.arange(tmax)`. -/
noncomputable def MarkovChain.probStateDuration (mc : MarkovChain) (tmax : ℕ) : NpMat :=
  ⟨mc.nStates, tmax, fun i t =>
    npExp (npAdd (npMul (npLog (mc.A.entry i i)) (.num t))
                 (npLog (1 - mc.A.entry i i)))⟩

/-- `MarkovChain.meanStateDuration`: `1 / (1 - diag A)`. -/
def MarkovChain.meanStateDuration (mc : MarkovChain) : Vec :=
  ⟨mc.nStates, fun i => 1 / (1 - mc.A.entry i i)⟩

/-! ### Specification-side definitions for the likelihood refinement (C1)

These formalize the claim's words "the sum over all state paths of the
initial probability times transition probabilities times the pX entries
along the path", independently of the forward recursion. -/

/-- All state paths of a given length with states drawn from `0..n-1`
(0-based here; the 1-based indexing of `rand` is irrelevant to the
likelihood, which indexes arrays 0-based). -/
def pathsList (n : ℕ) : ℕ → List (List ℕ)
  | 0 => [[]]
  | T + 1 => ((pathsList n T).map (fun p => (List.range n).map (fun s => p ++ [s]))).flatten

/-- Product of transition and observation factors along the remainder of a
path: `transWeight A pX t prev rest` multiplies `A[prev, s] * pX[s, t]` for
the successive states `s` of `rest`, advancing the time index. -/
def transWeight (A : ℕ → ℕ → ℚ) (pX : Mat) : ℕ → ℕ → List ℕ → ℚ
  | _, _, [] => 1
  | t, prev, s :: rest => A prev s * pX.entry s t * transWeight A pX (t + 1) s rest

/-- Weight of a full state path `s₀ :: rest`:
`q[s₀] * pX[s₀,0] *` the chained transition/observation factors. -/
def pathWeight (mc : MarkovChain) (pX : Mat) : List ℕ → ℚ
  | [] => 0
  | s :: rest => mc.q.entry s * pX.entry s 0 * transWeight mc.A.entry pX 1 s rest

/-- Last state of a nonempty path written as head plus tail. -/
def lastState (prev : ℕ) : List ℕ → ℕ
  | [] => prev
  | s :: rest => lastState s rest

/-- Last state of a path (`0` for the empty path, which never occurs). -/
def pathLast : List ℕ → ℕ
  | [] => 0
  | s :: rest => lastState s rest

/-- Total likelihood of the observation sequence: sum of path weights over
all state paths of length `nObservations`, each multiplied — for a
finite-duration chain — by the probability of exiting to END after the last
step. -/
def likelihood (mc : MarkovChain) (pX : Mat) : ℚ :=
  if mc.is_finite then
    ((pathsList mc.nStates pX.cols).map
      (fun p => pathWeight mc pX p * mc.A.entry (pathLast p) (mc.A.cols - 1))).sum
  else
    ((pathsList mc.nStates pX.cols).map (fun p => pathWeight mc pX p)).sum

/-- Unscaled forward variable `α_t(j)`, the standard HMM forward
recursion without normalization (used only in proofs, to connect the
scaled recursion of the code with the path sum above). -/
def alphaFwd (mc : MarkovChain) (pX : Mat) : ℕ → ℕ → ℚ
  | 0, j => mc.q.entry j * pX.entry j 0
  | t + 1, j =>
      pX.entry j (t + 1) *
        ∑ k in Finset.range mc.nStates, alphaFwd mc pX t k * mc.A.entry k j

/-- The forward-backward cross-check quantity of spec §4.3/§8:
`Σ_i a_hat[i,t] * beta_hat[i,t] * c[t]` for the arrays produced by
`forward` and `backward` (used only in proofs). -/
def fbSum (mc : MarkovChain) (pX : Mat) (t : ℕ) : ℚ :=
  ∑ i in Finset.range mc.nStates,
    (ahatM mc pX).entry i t *
      (mc.backward (cVec mc pX) pX).entry i t * (cVec mc pX).entry t

/-! ### Concrete instances used by witnesses and counterexamples -/

/-- The 2-state finite-duration model of spec §8:
`q = [0.6, 0.4]`, `A = [[0.5, 0.2, 0.3], [0.1, 0.6, 0.3]]`. -/
def mcEx : MarkovChain :=
  MarkovChain.init (Vec.ofList [3/5, 2/5])
    (Mat.ofList [[1/2, 1/5, 3/10], [1/10, 3/5, 3/10]])

/-- A 2-state infinite-duration model. -/
def mcInfEx : MarkovChain :=
  MarkovChain.init (Vec.ofList [1/2, 1/2])
    (Mat.ofList [[9/10, 1/10], [1/5, 4/5]])

/-- A model whose first diagonal entry is `1/2` (for the geometric
state-duration witness). -/
def mcHalf : MarkovChain :=
  MarkovChain.init (Vec.ofList [1/2, 1/2])
    (Mat.ofList [[1/2, 1/2], [1/4, 3/4]])

/-- A model with a zero diagonal entry, permitted by the model invariant
`a_ii ∈ [0,1)`. -/
def mcZeroDiag : MarkovChain :=
  MarkovChain.init (Vec.ofList [1/2, 1/2])
    (Mat.ofList [[0, 1], [1/2, 1/2]])

/-- A 2×3 all-ones observation-likelihood matrix. -/
def pXones : Mat := Mat.ofList [[1, 1, 1], [1, 1, 1]]

/-- A 2×3 observation matrix whose first column is all zeros (degenerate
step-0 mass). -/
def pXzero : Mat := Mat.ofList [[0, 1, 1], [0, 1, 1]]

/-- A 3-row observation matrix (row count mismatching `mcEx.nStates = 2`). -/
def pXbad : Mat := Mat.ofList [[1, 1], [1, 1], [1, 1]]

/-- A length-3 initial vector, mismatching a 2×2 transition matrix. -/
def qMism : Vec := Vec.ofList [1/3, 1/3, 1/3]

/-- A 2×2 transition matrix for the construction counterexample. -/
def AMism : Mat := Mat.ofList [[1/2, 1/2], [1/2, 1/2]]

/-- Constant-zero random stream. -/
def rsZero : ℕ → ℕ := fun _ => 0

/-! ## Helper lemmas -/

section RatReducible

attribute [local semireducible] Rat.mul Rat.add Rat.inv Rat.sub

theorem fwdCols_sum_one (mc : MarkovChain) (pX : Mat) (t : ℕ)
    (h : (fwdCols mc pX t).2 ≠ 0) :
    ∑ j in Finset.range mc.nStates, (fwdCols mc pX t).1 j = 1 := by
  cases t with
  | zero =>
      simp only [fwdCols] at h ⊢
      rw [← Finset.sum_div]
      exact div_self h
  | succ t =>
      simp only [fwdCols] at h ⊢
      rw [← Finset.sum_div]
      exact div_self h

theorem forward_eq_some (mc : MarkovChain) (pX : Mat)
    (hr : pX.rows = mc.nStates) (hT : 1 ≤ pX.cols) :
    mc.forward pX = some (ahatM mc pX, cVec mc pX) := by
  have h0 : ¬ pX.cols = 0 := by omega
  simp [MarkovChain.forward, hr, h0]

/-! ## C6: construction performs no validation -/

/-- C6 (counterexample): constructing a model from a length-3 `q` and a 2×2
`A` succeeds: `__init__` is a total function that stores the mismatched
arrays unchecked, so no shape-mismatch error is ever raised. -/
theorem init_mismatch_succeeds :
    (MarkovChain.init qMism AMism).nStates = 2 ∧
    (MarkovChain.init qMism AMism).q.len = 3 ∧
    (MarkovChain.init qMism AMism).q.len ≠ (MarkovChain.init qMism AMism).nStates := by
  refine ⟨rfl, rfl, ?_⟩
  decide

/-- C6 (amended): construction never fails and performs no validation at
all: for every `q` and `A` — whatever their shapes — `__init__` stores them
unchecked, derives `nStates` from `A`'s row count and sets `is_finite` iff
`A` is non-square. -/
theorem init_total_no_validation (v : Vec) (m : Mat) :
    (MarkovChain.init v m).q = v ∧
    (MarkovChain.init v m).A = m ∧
    (MarkovChain.init v m).nStates = m.rows ∧
    ((MarkovChain.init v m).is_finite = true ↔ m.rows ≠ m.cols) := by
  refine ⟨rfl, rfl, rfl, ?_⟩
  simp [MarkovChain.init, bne_iff_ne]

/-! ## C9: forward rejects a pX with the wrong row count -/

/-- C9: if the row count of `pX` differs from the model's `nStates`, the
`assert` at the top of `forward` fires and the call fails without returning
a result. -/
theorem forward_row_mismatch_fails (mc : MarkovChain) (pX : Mat)
    (h : pX.rows ≠ mc.nStates) : mc.forward pX = none := by
  simp [MarkovChain.forward, h]

/-- C9 (witness): `forward` fails on a 3-row `pX` against the 2-state model. -/
theorem forward_row_mismatch_fails_witness : mcEx.forward pXbad = none :=
  forward_row_mismatch_fails mcEx pXbad (by decide)

/-! ## C7: zero scale factor is not surfaced as an error -/

/-- C7 (code evaluation at the failing input): on an observation matrix
whose first column is all zeros, `forward` does NOT fail: it divides by the
zero scale factor silently and returns a result whose first scale factor is
0 and whose first `a_hat` column sums to 0 instead of 1 (in floating point
the division `0/0` yields NaN; in this exact-arithmetic model it yields 0 —
either way a defined error is not raised, contradicting the claimed
contract). -/
theorem forward_zero_mass_silent :
    (mcEx.forward pXzero).map
      (fun r => (r.2.entry 0, ∑ j in Finset.range 2, r.1.entry j 0)) = some (0, 0) := by
  decide

/-! ## C5: probDuration uses the full transpose and crashes on finite chains -/

/-- C5 (code evaluation at the failing input): for the finite-duration
2-state model, `probDuration` raises a numpy shape error — the code
subtracts the FULL transpose `A.T` (shape 3×2) from `np.eye(2)` instead of
the non-absorbing submatrix — so no duration PMF is ever produced; for an
infinite-duration model it returns the untouched all-zero array. -/
theorem probDuration_finite_shape_error :
    mcEx.probDuration 5 = none ∧
    mcInfEx.probDuration 5 = some [0, 0, 0, 0, 0] := by
  constructor
  · decide
  · decide

/-! ## C4: rand -/

/-- C4 (counterexample): with `tmax = 1` — a positive bound — `rand` on an
infinite-duration chain returns no sequence at all: both branches of the
Python function only return `S` inside their `if tmax > 1:` block, so the
call falls off the end and returns `None`, not a length-1 sequence. -/
theorem rand_tmax_one_returns_none : mcInfEx.rand rsZero 1 = none := by
  decide

/-- C4 helper: a draw lands in the presented array whenever it is nonempty. -/
theorem npChoice_mem (arr : List ℕ) (p : ℕ → ℚ) (r : ℕ) (h : arr ≠ []) :
    npChoice arr p r ∈ arr := by
  have hlen : 0 < arr.length := List.length_pos.mpr h
  have hlt : r % arr.length < arr.length := Nat.mod_lt r hlen
  unfold npChoice
  rw [List.getD_eq_getElem arr 0 hlt]
  exact List.getElem_mem hlt

/-- C4 helper: the infinite-branch loop appends exactly `rem` states. -/
theorem randInfLoop_length (mc : MarkovChain) (rs : ℕ → ℕ) :
    ∀ rem i prev, (randInfLoop mc rs rem i prev).length = rem := by
  intro rem
  induction rem with
  | zero => intro i prev; rfl
  | succ rem ih => intro i prev; simp [randInfLoop, ih]

/-- C4 helper: every state the infinite-branch loop appends lies in
`1..nStates`. -/
theorem randInfLoop_mem (mc : MarkovChain) (rs : ℕ → ℕ) (hn : 1 ≤ mc.nStates) :
    ∀ rem i prev s, s ∈ randInfLoop mc rs rem i prev → 1 ≤ s ∧ s ≤ mc.nStates := by
  intro rem
  induction rem with
  | zero => intro i prev s hs; simp [randInfLoop] at hs
  | succ rem ih =>
      intro i prev s hs
      simp only [randInfLoop, List.mem_cons] at hs
      rcases hs with rfl | hs
      · have hne : List.range' 1 mc.nStates ≠ [] := by
          have : (List.range' 1 mc.nStates).length = mc.nStates := List.length_range' ..
          intro hcon; rw [hcon] at this; simp at this; omega
        have := npChoice_mem (List.range' 1 mc.nStates)
          (fun j => mc.A.entry (prev - 1) j) (rs i) hne
        have hb := List.mem_range'_1.mp this
        omega
      · exact ih _ _ _ hs

/-- C4 helper: the finite-branch loop appends at most `rem` states. -/
theorem randFinLoop_length_le (mc : MarkovChain) (rs : ℕ → ℕ) :
    ∀ rem i prev, (randFinLoop mc rs rem i prev).length ≤ rem := by
  intro rem
  induction rem with
  | zero => intro i prev; simp [randFinLoop]
  | succ rem ih =>
      intro i prev
      simp only [randFinLoop]
      split
      · simp
      · simpa using Nat.succ_le_succ (ih _ _)

/-- C4 helper: every state the finite-branch loop appends lies in
`1..nStates`; in particular the END index `nStates + 1` is never appended. -/
theorem randFinLoop_mem (mc : MarkovChain) (rs : ℕ → ℕ) :
    ∀ rem i prev s, s ∈ randFinLoop mc rs rem i prev → 1 ≤ s ∧ s ≤ mc.nStates := by
  intro rem
  induction rem with
  | zero => intro i prev s hs; simp [randFinLoop] at hs
  | succ rem ih =>
      intro i prev s hs
      simp only [randFinLoop] at hs
      by_cases hend : npChoice (List.range' 1 (mc.nStates + 1))
          (fun j => mc.A.entry (prev - 1) j) (rs i) = mc.nStates + 1
      · rw [if_pos hend] at hs; simp at hs
      · rw [if_neg hend] at hs
        rcases List.mem_cons.mp hs with rfl | hs
        · have hne : List.range' 1 (mc.nStates + 1) ≠ [] := by
            have : (List.range' 1 (mc.nStates + 1)).length = mc.nStates + 1 :=
              List.length_range' ..
            intro hcon; rw [hcon] at this; simp at this
          have := npChoice_mem (List.range' 1 (mc.nStates + 1))
            (fun j => mc.A.entry (prev - 1) j) (rs i) hne
          have hb := List.mem_range'_1.mp this
          omega
        · exact ih _ _ _ hs

/-- C4 (amended): for every model with at least one state, every random
stream and every `tmax ≥ 2` (for `tmax ≤ 1` the function returns `None`, as
the counterexample shows), `rand` returns a sequence of 1-based state
indices in `1..nStates` — never the END index `nStates + 1` — whose length
is exactly `tmax` for an infinite-duration chain and at most `tmax` for a
finite-duration chain. -/
theorem rand_state_sequence (mc : MarkovChain) (rs : ℕ → ℕ) (tmax : ℕ)
    (htmax : 2 ≤ tmax) (hn : 1 ≤ mc.nStates) :
    ∃ S, mc.rand rs tmax = some S ∧
      (∀ s ∈ S, 1 ≤ s ∧ s ≤ mc.nStates) ∧
      (mc.is_finite = false → S.length = tmax) ∧
      (mc.is_finite = true → S.length ≤ tmax) := by
  have htm1 : tmax > 1 := htmax
  have hne : List.range' 1 mc.nStates ≠ [] := by
    have : (List.range' 1 mc.nStates).length = mc.nStates := List.length_range' ..
    intro hcon; rw [hcon] at this; simp at this; omega
  have hs0 := npChoice_mem (List.range' 1 mc.nStates) mc.q.entry (rs 0) hne
  have hs0b := List.mem_range'_1.mp hs0
  cases hfin : mc.is_finite with
  | false =>
      have heq : mc.rand rs tmax = some
          (npChoice (List.range' 1 mc.nStates) mc.q.entry (rs 0) ::
            randInfLoop mc rs (tmax - 1) 1
              (npChoice (List.range' 1 mc.nStates) mc.q.entry (rs 0))) := by
        simp [MarkovChain.rand, hfin, htm1]
      refine ⟨_, heq, ?_, ?_, ?_⟩
      · intro s hs
        rcases List.mem_cons.mp hs with rfl | hs
        · omega
        · exact randInfLoop_mem mc rs hn _ _ _ _ hs
      · intro _
        simp only [List.length_cons, randInfLoop_length]
        omega
      · intro hcon; simp at hcon
  | true =>
      have heq : mc.rand rs tmax = some
          (npChoice (List.range' 1 mc.nStates) mc.q.entry (rs 0) ::
            randFinLoop mc rs (tmax - 1) 1
              (npChoice (List.range' 1 mc.nStates) mc.q.entry (rs 0))) := by
        simp [MarkovChain.rand, hfin, htm1]
      refine ⟨_, heq, ?_, ?_, ?_⟩
      · intro s hs
        rcases List.mem_cons.mp hs with rfl | hs
        · omega
        · exact randFinLoop_mem mc rs _ _ _ _ hs
      · intro hcon; simp at hcon
      · intro _
        have := randFinLoop_length_le mc rs (tmax - 1) 1
          (npChoice (List.range' 1 mc.nStates) mc.q.entry (rs 0))
        simp only [List.length_cons]
        omega

/-- C4 (witness for the amended claim): instantiation at the 2-state
infinite model with `tmax = 4`. -/
theorem rand_state_sequence_witness :
    ∃ S, mcInfEx.rand rsZero 4 = some S ∧
      (∀ s ∈ S, 1 ≤ s ∧ s ≤ mcInfEx.nStates) ∧
      (mcInfEx.is_finite = false → S.length = 4) ∧
      (mcInfEx.is_finite = true → S.length ≤ 4) :=
  rand_state_sequence mcInfEx rsZero 4 (by decide) (by decide)

/-! ## C8: probStateDuration computes the geometric PMF for diagonal in (0,1) -/

/-- C8: for every model whose diagonal entry `a_ii` lies in `(0,1)`, the
log-space computation `exp(log(a_ii)*t + log(1-a_ii))` of
`probStateDuration` stays on ordinary reals and yields exactly the
closed-form geometric value `a_ii^t * (1 - a_ii)`, in an array of shape
`nStates × tmax`. -/
theorem probStateDuration_geometric (mc : MarkovChain) (tmax i t : ℕ)
    (_hi : i < mc.nStates) (_ht : t < tmax)
    (h0 : 0 < mc.A.entry i i) (h1 : mc.A.entry i i < 1) :
    (mc.probStateDuration tmax).rows = mc.nStates ∧
    (mc.probStateDuration tmax).cols = tmax ∧
    (mc.probStateDuration tmax).entry i t =
      NpVal.num (((mc.A.entry i i : ℚ) : ℝ) ^ t * (1 - ((mc.A.entry i i : ℚ) : ℝ))) := by
  refine ⟨rfl, rfl, ?_⟩
  have h1a : (0:ℚ) < 1 - mc.A.entry i i := by linarith
  have h0R : (0:ℝ) < ((mc.A.entry i i : ℚ) : ℝ) := by exact_mod_cast h0
  have hcast : (((1 : ℚ) - mc.A.entry i i : ℚ) : ℝ) = 1 - ((mc.A.entry i i : ℚ) : ℝ) := by
    push_cast
    ring
  have h1R : (0:ℝ) < 1 - ((mc.A.entry i i : ℚ) : ℝ) := by
    rw [← hcast]
    exact_mod_cast h1a
  show npExp (npAdd (npMul (npLog (mc.A.entry i i)) (.num t))
      (npLog (1 - mc.A.entry i i))) = _
  rw [npLog, if_pos h0, npLog, if_pos h1a]
  simp only [npMul, npAdd, npExp]
  congr 1
  rw [Real.exp_add, mul_comm (Real.log ((mc.A.entry i i : ℚ) : ℝ)) (t:ℝ),
    Real.exp_nat_mul, Real.exp_log h0R, hcast, Real.exp_log h1R]

/-- C8 (witness): instantiation at a model with `a_00 = 1/2`, `tmax = 3`,
`t = 1`. -/
theorem probStateDuration_geometric_witness :
    (mcHalf.probStateDuration 3).rows = mcHalf.nStates ∧
    (mcHalf.probStateDuration 3).cols = 3 ∧
    (mcHalf.probStateDuration 3).entry 0 1 =
      NpVal.num (((mcHalf.A.entry 0 0 : ℚ) : ℝ) ^ 1 * (1 - ((mcHalf.A.entry 0 0 : ℚ) : ℝ))) :=
  probStateDuration_geometric mcHalf 3 0 1 (by decide) (by decide) (by decide) (by decide)

/-! ## C10: probStateDuration is NaN on a zero diagonal entry -/

/-- C10: if some diagonal entry is exactly 0 — allowed by the model
invariant `a_ii ∈ [0,1)` — then `probStateDuration` computes
`log(0) * 0 = (-inf) * 0 = NaN` for duration index `t = 0`, and the
resulting entry is NaN rather than the correct geometric value
`P[D = 1] = 1`. -/
theorem probStateDuration_zero_diag_nan (mc : MarkovChain) (tmax i : ℕ)
    (h : mc.A.entry i i = 0) :
    (mc.probStateDuration tmax).entry i 0 = NpVal.nan ∧
    NpVal.nan ≠ NpVal.num 1 := by
  constructor
  · show npExp (npAdd (npMul (npLog (mc.A.entry i i)) (.num (0:ℕ)))
        (npLog (1 - mc.A.entry i i))) = NpVal.nan
    rw [h]
    rw [npLog, if_neg (lt_irrefl 0), if_pos rfl]
    have hz : ((0:ℕ) : ℝ) = 0 := Nat.cast_zero
    simp only [npMul, hz, lt_irrefl, if_false, npAdd, npExp]
  · intro hcon
    cases hcon

/-- C10 (witness): instantiation at the model whose first diagonal entry
is 0. -/
theorem probStateDuration_zero_diag_nan_witness :
    (mcZeroDiag.probStateDuration 3).entry 0 0 = NpVal.nan ∧
    NpVal.nan ≠ NpVal.num 1 :=
  probStateDuration_zero_diag_nan mcZeroDiag 3 0 (by decide)

/-! ## C2: forward output shapes and stochastic a_hat columns -/

/-- C2: for every model and every `pX` with `nStates` rows, at least one
column and strictly positive per-step unnormalized masses, `forward`
returns `(a_hat, c)` with `a_hat` of shape `nStates × nObservations`,
every column of `a_hat` summing to 1, and `c` of length `nObservations`
for an infinite-duration chain and `nObservations + 1` for a
finite-duration chain. -/
theorem forward_shapes_and_stochastic_columns (mc : MarkovChain) (pX : Mat)
    (hr : pX.rows = mc.nStates) (hT : 1 ≤ pX.cols)
    (hc : ∀ t, t < pX.cols → 0 < (fwdCols mc pX t).2) :
    ∃ ahat c, mc.forward pX = some (ahat, c) ∧
      ahat.rows = mc.nStates ∧ ahat.cols = pX.cols ∧
      (∀ t, t < pX.cols → ∑ j in Finset.range mc.nStates, ahat.entry j t = 1) ∧
      c.len = (if mc.is_finite then pX.cols + 1 else pX.cols) := by
  refine ⟨ahatM mc pX, cVec mc pX, forward_eq_some mc pX hr hT, rfl, rfl, ?_, ?_⟩
  · intro t ht
    simpa [ahatM] using fwdCols_sum_one mc pX t (ne_of_gt (hc t ht))
  · cases hfin : mc.is_finite <;> simp [cVec, hfin]

/-- C2 (witness): instantiation at the §8 scenario (2-state finite model,
2×3 all-ones `pX`). -/
theorem forward_shapes_and_stochastic_columns_witness :
    ∃ ahat c, mcEx.forward pXones = some (ahat, c) ∧
      ahat.rows = mcEx.nStates ∧ ahat.cols = pXones.cols ∧
      (∀ t, t < pXones.cols → ∑ j in Finset.range mcEx.nStates, ahat.entry j t = 1) ∧
      c.len = (if mcEx.is_finite then pXones.cols + 1 else pXones.cols) :=
  forward_shapes_and_stochastic_columns mcEx pXones (by decide) (by decide) (by decide)

/-! ## Path-sum machinery for the likelihood identity (C1) -/

theorem sum_map_range (f : ℕ → ℚ) : ∀ n : ℕ,
    ((List.range n).map f).sum = ∑ j in Finset.range n, f j := by
  intro n
  induction n with
  | zero => simp
  | succ n ih =>
      rw [List.range_succ, List.map_append, List.sum_append, Finset.sum_range_succ, ih]
      simp

theorem sum_map_flatten {α : Type} (f : α → ℚ) : ∀ L : List (List α),
    (L.flatten.map f).sum = (L.map (fun l => (l.map f).sum)).sum := by
  intro L
  induction L with
  | nil => simp
  | cons l L ih =>
      simp only [List.flatten_cons, List.map_append, List.sum_append, List.map_cons,
        List.sum_cons, ih]

theorem pathsList_length (n : ℕ) : ∀ (T : ℕ) (p : List ℕ),
    p ∈ pathsList n T → p.length = T := by
  intro T
  induction T with
  | zero =>
      intro p hp
      simp only [pathsList, List.mem_singleton] at hp
      simp [hp]
  | succ T ih =>
      intro p hp
      simp only [pathsList, List.mem_flatten, List.mem_map] at hp
      obtain ⟨l, ⟨q, hq, rfl⟩, hpl⟩ := hp
      obtain ⟨s, _, rfl⟩ := List.mem_map.mp hpl
      simp [ih q hq]

theorem lastState_append : ∀ (l : List ℕ) (prev j : ℕ),
    lastState prev (l ++ [j]) = j := by
  intro l
  induction l with
  | nil => intro prev j; rfl
  | cons s l ih =>
      intro prev j
      simp only [List.cons_append, lastState]
      exact ih s j

theorem pathLast_append (p : List ℕ) (j : ℕ) : pathLast (p ++ [j]) = j := by
  cases p with
  | nil => rfl
  | cons s l =>
      simp only [List.cons_append, pathLast]
      exact lastState_append l s j

theorem transWeight_append (A : ℕ → ℕ → ℚ) (pX : Mat) : ∀ (l : List ℕ) (t prev j : ℕ),
    transWeight A pX t prev (l ++ [j])
      = transWeight A pX t prev l * (A (lastState prev l) j * pX.entry j (t + l.length)) := by
  intro l
  induction l with
  | nil =>
      intro t prev j
      simp [transWeight, lastState]
  | cons s l ih =>
      intro t prev j
      have hstep : transWeight A pX t prev ((s :: l) ++ [j])
          = A prev s * pX.entry s t * transWeight A pX (t + 1) s (l ++ [j]) := rfl
      have hrhs1 : transWeight A pX t prev (s :: l)
          = A prev s * pX.entry s t * transWeight A pX (t + 1) s l := rfl
      have hrhs2 : lastState prev (s :: l) = lastState s l := rfl
      have hidx : t + 1 + l.length = t + (s :: l).length := by
        simp [List.length_cons]
        omega
      rw [hstep, ih (t + 1) s j, hrhs1, hrhs2, ← hidx]
      ring

theorem pathWeight_append (mc : MarkovChain) (pX : Mat) (p : List ℕ) (hp : p ≠ []) (j : ℕ) :
    pathWeight mc pX (p ++ [j])
      = pathWeight mc pX p * (mc.A.entry (pathLast p) j * pX.entry j p.length) := by
  cases p with
  | nil => exact absurd rfl hp
  | cons s l =>
      simp only [List.cons_append, pathWeight, pathLast, List.length_cons]
      rw [transWeight_append]
      have hidx : 1 + l.length = l.length + 1 := by omega
      rw [hidx]
      ring

theorem alpha_pathSum (mc : MarkovChain) (pX : Mat) :
    ∀ (t : ℕ) (g : ℕ → ℚ),
      ∑ j in Finset.range mc.nStates, alphaFwd mc pX t j * g j
        = ((pathsList mc.nStates (t + 1)).map
            (fun p => pathWeight mc pX p * g (pathLast p))).sum := by
  intro t
  induction t with
  | zero =>
      intro g
      have h1 : pathsList mc.nStates (0 + 1)
          = ((pathsList mc.nStates 0).map
              (fun p => (List.range mc.nStates).map (fun s => p ++ [s]))).flatten := rfl
      rw [h1]
      simp only [pathsList, List.map_cons, List.map_nil, List.flatten_cons, List.flatten_nil,
        List.append_nil, List.nil_append, List.map_map]
      rw [sum_map_range]
      refine Finset.sum_congr rfl ?_
      intro j _
      simp only [Function.comp, alphaFwd, pathWeight, pathLast, transWeight, lastState]
      ring
  | succ t ih =>
      intro g
      have key :
          ∑ j in Finset.range mc.nStates, alphaFwd mc pX (t + 1) j * g j
            = ∑ k in Finset.range mc.nStates, alphaFwd mc pX t k *
                (∑ j in Finset.range mc.nStates,
                  mc.A.entry k j * (pX.entry j (t + 1) * g j)) := by
        calc
          ∑ j in Finset.range mc.nStates, alphaFwd mc pX (t + 1) j * g j
              = ∑ j in Finset.range mc.nStates, ∑ k in Finset.range mc.nStates,
                  alphaFwd mc pX t k * (mc.A.entry k j * (pX.entry j (t + 1) * g j)) := by
                refine Finset.sum_congr rfl ?_
                intro j _
                simp only [alphaFwd]
                rw [Finset.mul_sum, Finset.sum_mul]
                refine Finset.sum_congr rfl ?_
                intro k _
                ring
          _ = ∑ k in Finset.range mc.nStates, ∑ j in Finset.range mc.nStates,
                  alphaFwd mc pX t k * (mc.A.entry k j * (pX.entry j (t + 1) * g j)) :=
                Finset.sum_comm
          _ = ∑ k in Finset.range mc.nStates, alphaFwd mc pX t k *
                (∑ j in Finset.range mc.nStates,
                  mc.A.entry k j * (pX.entry j (t + 1) * g j)) := by
                refine Finset.sum_congr rfl ?_
                intro k _
                rw [Finset.mul_sum]
      rw [key, ih]
      have h2 : pathsList mc.nStates (t + 1 + 1)
          = ((pathsList mc.nStates (t + 1)).map
              (fun p => (List.range mc.nStates).map (fun s => p ++ [s]))).flatten := rfl
      rw [h2, sum_map_flatten, List.map_map]
      refine congrArg List.sum (List.map_congr_left ?_)
      intro p hp
      have hplen : p.length = t + 1 := pathsList_length mc.nStates (t + 1) p hp
      have hpne : p ≠ [] := by
        intro hcon
        rw [hcon] at hplen
        simp at hplen
      simp only [Function.comp, List.map_map]
      rw [sum_map_range, Finset.mul_sum]
      refine Finset.sum_congr rfl ?_
      intro s _
      simp only [Function.comp]
      rw [pathWeight_append mc pX p hpne s, pathLast_append, hplen]
      ring

theorem fwdCols_unscale (mc : MarkovChain) (pX : Mat) :
    ∀ t, (∀ u, u ≤ t → (fwdCols mc pX u).2 ≠ 0) → ∀ j,
      (fwdCols mc pX t).1 j * ∏ u in Finset.range (t + 1), (fwdCols mc pX u).2
        = alphaFwd mc pX t j := by
  intro t
  induction t with
  | zero =>
      intro h j
      have h0 := h 0 le_rfl
      rw [Finset.prod_range_one]
      simp only [fwdCols] at h0 ⊢
      rw [div_mul_cancel₀ _ h0]
      rfl
  | succ t ih =>
      intro h j
      have hct : (fwdCols mc pX (t + 1)).2 ≠ 0 := h (t + 1) le_rfl
      have ih' : ∀ k, (fwdCols mc pX t).1 k *
          ∏ u in Finset.range (t + 1), (fwdCols mc pX u).2 = alphaFwd mc pX t k :=
        ih (fun u hu => h u (le_trans hu (Nat.le_succ t)))
      have hfst : (fwdCols mc pX (t + 1)).1 j
          = (pX.entry j (t + 1) * ∑ k in Finset.range mc.nStates,
              (fwdCols mc pX t).1 k * mc.A.entry k j) / (fwdCols mc pX (t + 1)).2 := rfl
      rw [Finset.prod_range_succ, hfst]
      have hkey : ∀ a P c : ℚ, c ≠ 0 → a / c * (P * c) = a * P := by
        intro a P c hcz
        field_simp
        ring
      rw [hkey _ _ _ hct]
      simp only [alphaFwd]
      rw [mul_assoc, Finset.sum_mul]
      congr 1
      refine Finset.sum_congr rfl ?_
      intro k _
      calc (fwdCols mc pX t).1 k * mc.A.entry k j *
            ∏ u in Finset.range (t + 1), (fwdCols mc pX u).2
          = ((fwdCols mc pX t).1 k *
              ∏ u in Finset.range (t + 1), (fwdCols mc pX u).2) * mc.A.entry k j := by ring
        _ = alphaFwd mc pX t k * mc.A.entry k j := by rw [ih' k]

theorem c_prod_eq_alpha_sum (mc : MarkovChain) (pX : Mat) (t : ℕ)
    (h : ∀ u, u ≤ t → (fwdCols mc pX u).2 ≠ 0) :
    ∏ u in Finset.range (t + 1), (fwdCols mc pX u).2
      = ∑ j in Finset.range mc.nStates, alphaFwd mc pX t j := by
  have hsum := fwdCols_sum_one mc pX t (h t le_rfl)
  calc ∏ u in Finset.range (t + 1), (fwdCols mc pX u).2
      = (∑ j in Finset.range mc.nStates, (fwdCols mc pX t).1 j)
          * ∏ u in Finset.range (t + 1), (fwdCols mc pX u).2 := by rw [hsum, one_mul]
    _ = ∑ j in Finset.range mc.nStates,
          (fwdCols mc pX t).1 j * ∏ u in Finset.range (t + 1), (fwdCols mc pX u).2 :=
        Finset.sum_mul ..
    _ = ∑ j in Finset.range mc.nStates, alphaFwd mc pX t j :=
        Finset.sum_congr rfl (fun j _ => fwdCols_unscale mc pX t h j)

/-! ## C1: the product of the scale factors is the total likelihood -/

/-- C1: for every model (finite- or infinite-duration) and every `pX` with
`nStates` rows, at least one column, and strictly positive per-step
unnormalized masses, the product of all entries of the scale-factor array
`c` returned by `forward` equals the total likelihood of the observation
sequence: the sum over all state paths of the initial probability times the
transition probabilities times the `pX` entries along the path — times, for
a finite-duration chain, the probability of exiting to END after the last
step. -/
theorem forward_scale_product_likelihood (mc : MarkovChain) (pX : Mat)
    (hr : pX.rows = mc.nStates) (hT : 1 ≤ pX.cols)
    (hc : ∀ t, t < pX.cols → 0 < (fwdCols mc pX t).2) :
    ∃ ahat c, mc.forward pX = some (ahat, c) ∧
      (∏ u in Finset.range c.len, c.entry u) = likelihood mc pX := by
  refine ⟨ahatM mc pX, cVec mc pX, forward_eq_some mc pX hr hT, ?_⟩
  obtain ⟨T, hTeq⟩ : ∃ T, pX.cols = T + 1 := ⟨pX.cols - 1, by omega⟩
  have hne : ∀ u, u ≤ T → (fwdCols mc pX u).2 ≠ 0 := by
    intro u hu
    exact ne_of_gt (hc u (by omega))
  cases hfin : mc.is_finite with
  | false =>
      have hcv : cVec mc pX = ⟨pX.cols, fun t => (fwdCols mc pX t).2⟩ := by
        simp [cVec, hfin]
      rw [hcv]
      simp only [likelihood, hfin, Bool.false_eq_true, if_false]
      rw [hTeq]
      rw [c_prod_eq_alpha_sum mc pX T hne]
      calc ∑ j in Finset.range mc.nStates, alphaFwd mc pX T j
          = ∑ j in Finset.range mc.nStates, alphaFwd mc pX T j * (fun _ : ℕ => (1:ℚ)) j := by
            simp
        _ = ((pathsList mc.nStates (T + 1)).map
              (fun p => pathWeight mc pX p * (fun _ : ℕ => (1:ℚ)) (pathLast p))).sum :=
            alpha_pathSum mc pX T (fun _ => 1)
        _ = ((pathsList mc.nStates (T + 1)).map (fun p => pathWeight mc pX p)).sum := by
            simp
  | true =>
      have hcv : cVec mc pX
          = ⟨pX.cols + 1, fun t =>
              if t < pX.cols then (fwdCols mc pX t).2 else exitC mc pX⟩ := by
        simp [cVec, hfin]
      rw [hcv]
      simp only [likelihood, hfin, if_true]
      rw [hTeq]
      rw [Finset.prod_range_succ]
      have hprod : (∏ u in Finset.range (T + 1),
            (if u < T + 1 then (fwdCols mc pX u).2 else exitC mc pX))
          = ∏ u in Finset.range (T + 1), (fwdCols mc pX u).2 :=
        Finset.prod_congr rfl (fun u hu => by rw [if_pos (Finset.mem_range.mp hu)])
      rw [hprod, if_neg (by omega : ¬ (T + 1 < T + 1))]
      have hexit : (∏ u in Finset.range (T + 1), (fwdCols mc pX u).2) * exitC mc pX
          = ∑ k in Finset.range mc.nStates,
              alphaFwd mc pX T k * mc.A.entry k (mc.A.cols - 1) := by
        rw [exitC, Finset.mul_sum]
        refine Finset.sum_congr rfl ?_
        intro k _
        have hsub : pX.cols - 1 = T := by omega
        rw [hsub]
        calc (∏ u in Finset.range (T + 1), (fwdCols mc pX u).2) *
              ((fwdCols mc pX T).1 k * mc.A.entry k (mc.A.cols - 1))
            = ((fwdCols mc pX T).1 k *
                ∏ u in Finset.range (T + 1), (fwdCols mc pX u).2) *
                  mc.A.entry k (mc.A.cols - 1) := by ring
          _ = alphaFwd mc pX T k * mc.A.entry k (mc.A.cols - 1) := by
              rw [fwdCols_unscale mc pX T hne k]
      rw [hexit, alpha_pathSum mc pX T (fun k => mc.A.entry k (mc.A.cols - 1))]

/-- C1 (witness): instantiation at the §8 scenario; the product of the four
scale factors equals the path-sum likelihood of the all-ones `pX`. -/
theorem forward_scale_product_likelihood_witness :
    ∃ ahat c, mcEx.forward pXones = some (ahat, c) ∧
      (∏ u in Finset.range c.len, c.entry u) = likelihood mcEx pXones :=
  forward_scale_product_likelihood mcEx pXones (by decide) (by decide) (by decide)

/-! ## C3: forward-backward normalization identity -/

theorem cVec_entry_lt (mc : MarkovChain) (pX : Mat) (t : ℕ) (ht : t < pX.cols) :
    (cVec mc pX).entry t = (fwdCols mc pX t).2 := by
  cases hfin : mc.is_finite <;> simp [cVec, hfin, ht]

theorem fbSum_eq (mc : MarkovChain) (pX : Mat) (u : ℕ) :
    fbSum mc pX u
      = ∑ i in Finset.range mc.nStates,
          (fwdCols mc pX u).1 i *
            betaAux mc (cVec mc pX) pX (pX.cols - 1 - u) i * (cVec mc pX).entry u := rfl

theorem fb_last (mc : MarkovChain) (pX : Mat) (hT : 1 ≤ pX.cols)
    (hc : ∀ t, t < pX.cols → 0 < (fwdCols mc pX t).2)
    (hexit : mc.is_finite = true → 0 < exitC mc pX) :
    fbSum mc pX (pX.cols - 1) = 1 := by
  have hTlt : pX.cols - 1 < pX.cols := by omega
  have hcT : (fwdCols mc pX (pX.cols - 1)).2 ≠ 0 := ne_of_gt (hc _ hTlt)
  have hzero : pX.cols - 1 - (pX.cols - 1) = 0 := by omega
  rw [fbSum_eq, hzero]
  cases hfin : mc.is_finite with
  | false =>
      have hlen : (cVec mc pX).len = pX.cols := by simp [cVec, hfin]
      have hbeta : ∀ i, betaAux mc (cVec mc pX) pX 0 i
          = 1 / (fwdCols mc pX (pX.cols - 1)).2 := by
        intro i
        simp only [betaAux, hfin, Bool.false_eq_true, if_false]
        rw [hlen, cVec_entry_lt mc pX (pX.cols - 1) hTlt]
      have hterm : ∀ i, (fwdCols mc pX (pX.cols - 1)).1 i *
            betaAux mc (cVec mc pX) pX 0 i * (cVec mc pX).entry (pX.cols - 1)
          = (fwdCols mc pX (pX.cols - 1)).1 i := by
        intro i
        rw [hbeta i, cVec_entry_lt mc pX (pX.cols - 1) hTlt, mul_assoc,
          one_div_mul_cancel hcT, mul_one]
      rw [Finset.sum_congr rfl (fun i _ => hterm i)]
      exact fwdCols_sum_one mc pX (pX.cols - 1) hcT
  | true =>
      have hlen : (cVec mc pX).len = pX.cols + 1 := by simp [cVec, hfin]
      have hex : 0 < exitC mc pX := hexit hfin
      have hexne : exitC mc pX ≠ 0 := ne_of_gt hex
      have hc1 : (cVec mc pX).entry ((cVec mc pX).len - 1) = exitC mc pX := by
        rw [hlen]
        simp [cVec, hfin]
      have hc2 : (cVec mc pX).entry ((cVec mc pX).len - 2)
          = (fwdCols mc pX (pX.cols - 1)).2 := by
        rw [hlen]
        have h21 : pX.cols + 1 - 2 = pX.cols - 1 := by omega
        rw [h21]
        exact cVec_entry_lt mc pX (pX.cols - 1) hTlt
      have hbeta : ∀ i, betaAux mc (cVec mc pX) pX 0 i
          = mc.A.entry i (mc.A.cols - 1)
              / (exitC mc pX * (fwdCols mc pX (pX.cols - 1)).2) := by
        intro i
        simp only [betaAux, hfin, if_true]
        rw [hc1, hc2]
      have hcancel : ∀ a b e c : ℚ, c ≠ 0 → a * (b / (e * c)) * c = a * b / e := by
        intro a b e c hcz
        rw [← div_div, mul_assoc, div_mul_cancel₀ _ hcz, mul_div_assoc]
      have hterm : ∀ i, (fwdCols mc pX (pX.cols - 1)).1 i *
            betaAux mc (cVec mc pX) pX 0 i * (cVec mc pX).entry (pX.cols - 1)
          = (fwdCols mc pX (pX.cols - 1)).1 i * mc.A.entry i (mc.A.cols - 1)
              / exitC mc pX := by
        intro i
        rw [hbeta i, cVec_entry_lt mc pX (pX.cols - 1) hTlt]
        exact hcancel _ _ _ _ hcT
      rw [Finset.sum_congr rfl (fun i _ => hterm i), ← Finset.sum_div]
      have hsum : ∑ i in Finset.range mc.nStates,
          (fwdCols mc pX (pX.cols - 1)).1 i * mc.A.entry i (mc.A.cols - 1)
          = exitC mc pX := rfl
      rw [hsum, div_self hexne]

theorem fb_step (mc : MarkovChain) (pX : Mat) (t : ℕ) (ht2 : t + 2 ≤ pX.cols)
    (hct : (fwdCols mc pX t).2 ≠ 0) (hct1 : (fwdCols mc pX (t + 1)).2 ≠ 0) :
    fbSum mc pX t = fbSum mc pX (t + 1) := by
  have htlt : t < pX.cols := by omega
  have ht1lt : t + 1 < pX.cols := by omega
  have hbeq : ∀ i, betaAux mc (cVec mc pX) pX ((pX.cols - 1 - (t + 1)) + 1) i
      = (∑ j in Finset.range mc.nStates,
          mc.A.entry i j * pX.entry j (t + 1) *
            betaAux mc (cVec mc pX) pX (pX.cols - 1 - (t + 1)) j)
        / (fwdCols mc pX t).2 := by
    intro i
    show (∑ j in Finset.range mc.nStates,
        mc.A.entry i j * pX.entry j (pX.cols - 1 - (pX.cols - 1 - (t + 1))) *
          betaAux mc (cVec mc pX) pX (pX.cols - 1 - (t + 1)) j)
        / (cVec mc pX).entry (pX.cols - 2 - (pX.cols - 1 - (t + 1))) = _
    rw [show pX.cols - 1 - (pX.cols - 1 - (t + 1)) = t + 1 from by omega,
        show pX.cols - 2 - (pX.cols - 1 - (t + 1)) = t from by omega,
        cVec_entry_lt mc pX t htlt]
  have hnum : ∀ j, pX.entry j (t + 1) *
        ∑ i in Finset.range mc.nStates, (fwdCols mc pX t).1 i * mc.A.entry i j
      = (fwdCols mc pX (t + 1)).1 j * (fwdCols mc pX (t + 1)).2 := by
    intro j
    have hfst : (fwdCols mc pX (t + 1)).1 j
        = (pX.entry j (t + 1) * ∑ k in Finset.range mc.nStates,
            (fwdCols mc pX t).1 k * mc.A.entry k j) / (fwdCols mc pX (t + 1)).2 := rfl
    rw [hfst, div_mul_cancel₀ _ hct1]
  rw [fbSum_eq mc pX t, fbSum_eq mc pX (t + 1)]
  rw [show pX.cols - 1 - t = (pX.cols - 1 - (t + 1)) + 1 from by omega]
  calc
    ∑ i in Finset.range mc.nStates,
        (fwdCols mc pX t).1 i *
          betaAux mc (cVec mc pX) pX ((pX.cols - 1 - (t + 1)) + 1) i *
            (cVec mc pX).entry t
        = ∑ i in Finset.range mc.nStates,
            (fwdCols mc pX t).1 i *
              ∑ j in Finset.range mc.nStates,
                mc.A.entry i j * pX.entry j (t + 1) *
                  betaAux mc (cVec mc pX) pX (pX.cols - 1 - (t + 1)) j := by
          refine Finset.sum_congr rfl fun i _ => ?_
          rw [hbeq i, cVec_entry_lt mc pX t htlt, mul_assoc, div_mul_cancel₀ _ hct]
    _ = ∑ i in Finset.range mc.nStates, ∑ j in Finset.range mc.nStates,
            (fwdCols mc pX t).1 i *
              (mc.A.entry i j * pX.entry j (t + 1) *
                betaAux mc (cVec mc pX) pX (pX.cols - 1 - (t + 1)) j) := by
          refine Finset.sum_congr rfl fun i _ => ?_
          rw [Finset.mul_sum]
    _ = ∑ j in Finset.range mc.nStates, ∑ i in Finset.range mc.nStates,
            (fwdCols mc pX t).1 i *
              (mc.A.entry i j * pX.entry j (t + 1) *
                betaAux mc (cVec mc pX) pX (pX.cols - 1 - (t + 1)) j) :=
          Finset.sum_comm
    _ = ∑ j in Finset.range mc.nStates,
            (pX.entry j (t + 1) *
              ∑ i in Finset.range mc.nStates, (fwdCols mc pX t).1 i * mc.A.entry i j) *
                betaAux mc (cVec mc pX) pX (pX.cols - 1 - (t + 1)) j := by
          refine Finset.sum_congr rfl fun j _ => ?_
          rw [Finset.mul_sum, Finset.sum_mul]
          refine Finset.sum_congr rfl fun i _ => ?_
          ring
    _ = ∑ j in Finset.range mc.nStates,
            (fwdCols mc pX (t + 1)).1 j * (fwdCols mc pX (t + 1)).2 *
              betaAux mc (cVec mc pX) pX (pX.cols - 1 - (t + 1)) j := by
          refine Finset.sum_congr rfl fun j _ => ?_
          rw [hnum j]
    _ = ∑ i in Finset.range mc.nStates,
            (fwdCols mc pX (t + 1)).1 i *
              betaAux mc (cVec mc pX) pX (pX.cols - 1 - (t + 1)) i *
                (cVec mc pX).entry (t + 1) := by
          refine Finset.sum_congr rfl fun j _ => ?_
          rw [cVec_entry_lt mc pX (t + 1) ht1lt]
          ring

theorem fb_eq_one (mc : MarkovChain) (pX : Mat) (hT : 1 ≤ pX.cols)
    (hc : ∀ t, t < pX.cols → 0 < (fwdCols mc pX t).2)
    (hexit : mc.is_finite = true → 0 < exitC mc pX) :
    ∀ d t, t + d = pX.cols - 1 → fbSum mc pX t = 1 := by
  intro d
  induction d with
  | zero =>
      intro t ht
      have heq : t = pX.cols - 1 := by omega
      rw [heq]
      exact fb_last mc pX hT hc hexit
  | succ d ih =>
      intro t ht
      have h2 : t + 2 ≤ pX.cols := by omega
      rw [fb_step mc pX t h2 (ne_of_gt (hc t (by omega))) (ne_of_gt (hc (t + 1) (by omega)))]
      exact ih (t + 1) (by omega)

/-- C3: for every model and `pX` with `nStates` rows, at least one column,
and strictly positive per-step masses (including, for a finite-duration
chain, a positive END exit mass), the cross-check quantity
`Σ_i a_hat[i,t] * beta_hat[i,t] * c[t]` — with `(a_hat, c)` from `forward`
and `beta_hat` from `backward(c, pX)` — takes the same value at every time
index `t < nObservations`. -/
theorem forward_backward_invariant (mc : MarkovChain) (pX : Mat)
    (hr : pX.rows = mc.nStates) (hT : 1 ≤ pX.cols)
    (hc : ∀ t, t < pX.cols → 0 < (fwdCols mc pX t).2)
    (hexit : mc.is_finite = true → 0 < exitC mc pX) :
    ∃ ahat c, mc.forward pX = some (ahat, c) ∧
      ∀ t1, t1 < pX.cols → ∀ t2, t2 < pX.cols →
        (∑ i in Finset.range mc.nStates,
          ahat.entry i t1 * (mc.backward c pX).entry i t1 * c.entry t1)
        = ∑ i in Finset.range mc.nStates,
            ahat.entry i t2 * (mc.backward c pX).entry i t2 * c.entry t2 := by
  refine ⟨ahatM mc pX, cVec mc pX, forward_eq_some mc pX hr hT, ?_⟩
  intro t1 ht1 t2 ht2
  have h1 : fbSum mc pX t1 = 1 :=
    fb_eq_one mc pX hT hc hexit (pX.cols - 1 - t1) t1 (by omega)
  have h2 : fbSum mc pX t2 = 1 :=
    fb_eq_one mc pX hT hc hexit (pX.cols - 1 - t2) t2 (by omega)
  show fbSum mc pX t1 = fbSum mc pX t2
  rw [h1, h2]

/-- C3 (witness): instantiation at the §8 scenario (all four hypotheses
hold: shape match, 3 observation columns, positive scale factors 1, 7/10,
7/10 and positive exit mass 3/10). -/
theorem forward_backward_invariant_witness :
    ∃ ahat c, mcEx.forward pXones = some (ahat, c) ∧
      ∀ t1, t1 < pXones.cols → ∀ t2, t2 < pXones.cols →
        (∑ i in Finset.range mcEx.nStates,
          ahat.entry i t1 * (mcEx.backward c pXones).entry i t1 * c.entry t1)
        = ∑ i in Finset.range mcEx.nStates,
            ahat.entry i t2 * (mcEx.backward c pXones).entry i t2 * c.entry t2 :=
  forward_backward_invariant mcEx pXones (by decide) (by decide) (by decide) (by decide)

end RatReducible
